import Mathlib

/-!
Verification of the teams-ai repository fragment.

Two source artifacts are embedded:

* `src/python/packages/ai/teams/activity_type.py` — the `ActivityType`
  literal union, embedded as the list of its string literals in source
  order.

* `src/python/scripts/fmt.py` — the format-runner `fmt`, which iterates
  `Path("./packages").glob("*")`, and for each entry that is a directory
  prints a banner line with the entry's name and runs the formatter
  subprocess with the entry's absolute path as working directory, calling
  `check_returncode()` on the result (which raises on any nonzero return
  code).  We embed the filesystem as a list of entries (paths given as
  segment lists relative to `./packages`, in directory-listing order),
  subprocess return codes as an oracle from working directory to `Int`,
  the observable behaviour as a trace of events, and the raised
  `CalledProcessError` as `Except.error` carrying the return code.
-/

namespace TeamsAI

/-- The 18 string literals of the `ActivityType` `Literal[...]` union in
`activity_type.py`, in source order. -/
def ActivityType : List String :=
  [ "message",
    "contactRelationUpdate",
    "conversationUpdate",
    "typing",
    "endOfConversation",
    "event",
    "invoke",
    "invokeResponse",
    "deleteUserData",
    "messageUpdate",
    "messageDelete",
    "installationUpdate",
    "messageReaction",
    "suggestion",
    "trace",
    "handoff",
    "command",
    "commandResult" ]

/-- Modelled from the spec: the consuming validator of activity-type tags is
not part of this fragment; the spec states that it accepts exactly the
members of the enumerated set.  We model it as the membership check on
`ActivityType`. -/
def isValidActivityType (v : String) : Bool :=
  ActivityType.contains v

/-- An entry of the filesystem below `./packages`: its path as a list of
name segments relative to `./packages`, and whether it is a directory
(`e.is_dir()` in the script). -/
structure FsEntry where
  path : List String
  isDir : Bool
deriving DecidableEq, Repr

/-- The fixed folder the script iterates, as an absolute-path prefix. -/
def packagesDir : List String :=
  [".", "packages"]

/-- `e.absolute()`: the entry's absolute path, used as the working
directory of the formatter subprocess. -/
def FsEntry.absolute (e : FsEntry) : List String :=
  packagesDir ++ e.path

/-- `e.name`: the final path component, printed in the banner line. -/
def FsEntry.name (e : FsEntry) : String :=
  e.path.getLastD ""

/-- `Path("./packages").glob("*")`: the pattern `*` matches exactly one
path segment, so the result is the immediate children of `./packages`,
kept in directory-listing order. -/
def glob_star (fs : List FsEntry) : List FsEntry :=
  fs.filter (fun e => e.path.length == 1)

/-- One observable step of a run of `fmt`:
`banner n` is the `print("------ " + e.name + " ------")` call with
`n = e.name`; `start cwd` is the formatter subprocess beginning with the
given working directory; `finish cwd code` is that subprocess running to
completion with return code `code` (its result being observed). -/
inductive Event where
  | banner (name : String)
  | start (cwd : List String)
  | finish (cwd : List String) (code : Int)
deriving DecidableEq, Repr

/-- `CompletedProcess.check_returncode()`: raises `CalledProcessError`
carrying the return code whenever it is nonzero (`if self.returncode:`),
so negative codes (signal terminations) raise as well. -/
def check_returncode (code : Int) : Except Int Unit :=
  if code = 0 then Except.ok () else Except.error code

/-- The loop body of `fmt` over an entry list: skip non-directories; for a
directory, print the banner, run the formatter with the entry's absolute
path as working directory (return code given by the oracle `rc`), and
stop with `Except.error` as soon as `check_returncode` raises.  Returns
the event trace together with the outcome. -/
def fmtLoop (rc : List String → Int) : List FsEntry → List Event × Except Int Unit
  | [] => ([], Except.ok ())
  | e :: rest =>
    if e.isDir then
      let cwd := e.absolute
      let code := rc cwd
      match check_returncode code with
      | Except.error c =>
          ([Event.banner e.name, Event.start cwd, Event.finish cwd code],
           Except.error c)
      | Except.ok () =>
          let r := fmtLoop rc rest
          (Event.banner e.name :: Event.start cwd :: Event.finish cwd code :: r.1,
           r.2)
    else fmtLoop rc rest

/-- `fmt()` from `fmt.py`: iterate `Path("./packages").glob("*")` and run
the loop body on each entry. -/
def fmt (rc : List String → Int) (fs : List FsEntry) : List Event × Except Int Unit :=
  fmtLoop rc (glob_star fs)

/-- A sample directory child `a` of `./packages`. -/
def eA : FsEntry := ⟨["a"], true⟩

/-- A sample directory child `b` of `./packages`. -/
def eB : FsEntry := ⟨["b"], true⟩

/-- A sample directory child `c` of `./packages`. -/
def eC : FsEntry := ⟨["c"], true⟩

/-- A sample non-directory child `x` of `./packages`. -/
def fileX : FsEntry := ⟨["x"], false⟩

/-- A return-code oracle where every formatter invocation succeeds. -/
def rcZero : List String → Int := fun _ => 0

/-- A return-code oracle where the invocation in `b` exits with code 2 and
all others succeed. -/
def rcFailB : List String → Int :=
  fun p => if p = FsEntry.absolute eB then 2 else 0

/-- A return-code oracle where the invocation in `a` exits with code 1 and
all others succeed. -/
def rcFailA : List String → Int :=
  fun p => if p = FsEntry.absolute eA then 1 else 0

/-- A return-code oracle where every invocation is killed by SIGKILL,
reported by `subprocess` as return code -9. -/
def rcNeg : List String → Int := fun _ => -9

/-- If no entry of the processed list is a directory, the loop produces no
events and succeeds. -/
theorem fmtLoop_no_dirs (rc : List String → Int) :
    ∀ l : List FsEntry, (∀ e ∈ l, e.isDir = false) →
      fmtLoop rc l = ([], Except.ok ()) := by
  intro l
  induction l with
  | nil => intro _; rfl
  | cons e rest ih =>
    intro h
    have he : e.isDir = false := h e (List.mem_cons_self e rest)
    have hrest := ih fun x hx => h x (List.mem_cons_of_mem _ hx)
    simp [fmtLoop, he, hrest]

/-- An entry whose path is a single segment is named by that segment. -/
theorem FsEntry.path_singleton (e : FsEntry) (h : e.path.length = 1) :
    e.path = [e.name] := by
  obtain ⟨p, d⟩ := e
  rcases p with _ | ⟨a, _ | ⟨b, t⟩⟩
  · simp at h
  · rfl
  · simp at h

/-- Every `start` event in the loop's trace comes from a directory entry
of the processed list, with that entry's absolute path as working
directory. -/
theorem fmtLoop_start_mem (rc : List String → Int) :
    ∀ l : List FsEntry, ∀ p, Event.start p ∈ (fmtLoop rc l).1 →
      ∃ e, e ∈ l ∧ e.isDir = true ∧ p = e.absolute := by
  intro l
  induction l with
  | nil => intro p hp; simp [fmtLoop] at hp
  | cons e rest ih =>
    intro p hp
    by_cases hd : e.isDir
    · by_cases hc : rc e.absolute = 0
      · simp [fmtLoop, hd, check_returncode, hc] at hp
        rcases hp with rfl | h4
        · exact ⟨e, List.mem_cons_self e rest, hd, rfl⟩
        · obtain ⟨x, hx, hxd, hxp⟩ := ih p h4
          exact ⟨x, List.mem_cons_of_mem _ hx, hxd, hxp⟩
      · simp [fmtLoop, hd, check_returncode, hc] at hp
        exact ⟨e, List.mem_cons_self e rest, hd, hp⟩
    · have hd' : e.isDir = false := by simpa using hd
      simp only [fmtLoop, hd', if_false, Bool.false_eq_true] at hp
      obtain ⟨x, hx, hxd, hxp⟩ := ih p hp
      exact ⟨x, List.mem_cons_of_mem _ hx, hxd, hxp⟩

/-- When every directory in the processed list succeeds, the loop starts
the formatter in every directory of the list. -/
theorem fmtLoop_all_ok_starts (rc : List String → Int) :
    ∀ l : List FsEntry, (∀ e ∈ l, e.isDir = true → rc e.absolute = 0) →
      ∀ e ∈ l, e.isDir = true → Event.start e.absolute ∈ (fmtLoop rc l).1 := by
  intro l
  induction l with
  | nil => intro _ e he; simp at he
  | cons x rest ih =>
    intro h e he hed
    rcases List.mem_cons.mp he with rfl | hmem
    · have hc : rc e.absolute = 0 := h e (List.mem_cons_self e rest) hed
      simp [fmtLoop, hed, check_returncode, hc]
    · have hrest := ih (fun y hy => h y (List.mem_cons_of_mem _ hy)) e hmem hed
      by_cases hd : x.isDir
      · have hc : rc x.absolute = 0 := h x (List.mem_cons_self x rest) hd
        simp only [fmtLoop, hd, if_true, check_returncode, hc, if_pos,
          List.mem_cons]
        exact Or.inr (Or.inr (Or.inr hrest))
      · have hd' : x.isDir = false := by simpa using hd
        simpa [fmtLoop, hd'] using hrest

/-- When the loop succeeds, every observed return code was zero. -/
theorem fmtLoop_ok_all_zero (rc : List String → Int) :
    ∀ l : List FsEntry, (fmtLoop rc l).2 = Except.ok () →
      ∀ p c, Event.finish p c ∈ (fmtLoop rc l).1 → c = 0 := by
  intro l
  induction l with
  | nil => intro _ p c hp; simp [fmtLoop] at hp
  | cons e rest ih =>
    intro hok p c hp
    by_cases hd : e.isDir
    · by_cases hc : rc e.absolute = 0
      · simp [fmtLoop, hd, check_returncode, hc] at hok hp
        rcases hp with ⟨_, hc0⟩ | hp3
        · exact hc0
        · exact ih hok p c hp3
      · simp [fmtLoop, hd, check_returncode, hc] at hok
    · have hd' : e.isDir = false := by simpa using hd
      simp only [fmtLoop, hd', if_false, Bool.false_eq_true] at hok hp
      exact ih hok p c hp

/-- When the loop raises, the carried code is nonzero and the trace ends
with the failing invocation's completion. -/
theorem fmtLoop_error_shape (rc : List String → Int) :
    ∀ l : List FsEntry, ∀ c : Int, (fmtLoop rc l).2 = Except.error c →
      c ≠ 0 ∧ ∃ t p, (fmtLoop rc l).1 = t ++ [Event.finish p c] := by
  intro l
  induction l with
  | nil => intro c hc; simp [fmtLoop] at hc
  | cons e rest ih =>
    intro c herr
    by_cases hd : e.isDir
    · by_cases hc : rc e.absolute = 0
      · simp only [fmtLoop, hd, if_true, check_returncode, hc, if_pos] at herr ⊢
        obtain ⟨hne, t, p, ht⟩ := ih c herr
        refine ⟨hne, Event.banner e.name :: Event.start e.absolute ::
          Event.finish e.absolute (rc e.absolute) :: t, p, ?_⟩
        simp [ht, hc]
      · simp only [fmtLoop, hd, if_true, check_returncode, hc, if_neg] at herr ⊢
        have hcc : rc e.absolute = c := by
          simpa using herr
        refine ⟨by rw [← hcc]; exact hc,
          [Event.banner e.name, Event.start e.absolute], e.absolute, ?_⟩
        simp [hcc]
    · have hd' : e.isDir = false := by simpa using hd
      simp only [fmtLoop, hd', if_false, Bool.false_eq_true] at herr ⊢
      exact ih c herr

/-- Every working directory is started at most once when the processed
entries have pairwise distinct absolute paths. -/
theorem fmtLoop_start_count (rc : List String → Int) :
    ∀ l : List FsEntry, (l.map FsEntry.absolute).Nodup →
      ∀ p, ((fmtLoop rc l).1.count (Event.start p)) ≤ 1 := by
  intro l
  induction l with
  | nil => intro _ p; simp [fmtLoop]
  | cons e rest ih =>
    intro hnd p
    rw [List.map_cons, List.nodup_cons] at hnd
    obtain ⟨hnotin, hnd'⟩ := hnd
    by_cases hd : e.isDir
    · by_cases hc : rc e.absolute = 0
      · by_cases hp : Event.start p = Event.start e.absolute
        · have hpe : p = e.absolute := by injection hp
          subst hpe
          have h0 : (fmtLoop rc rest).1.count (Event.start e.absolute) = 0 := by
            rw [List.count_eq_zero]
            intro hmem
            obtain ⟨x, hx, _, hxe⟩ := fmtLoop_start_mem rc rest e.absolute hmem
            exact hnotin (hxe ▸ List.mem_map_of_mem FsEntry.absolute hx)
          simp [fmtLoop, hd, check_returncode, hc, List.count_cons, h0]
        · simp only [fmtLoop, hd, if_true, check_returncode, hc, if_pos]
          simpa [List.count_cons, hp] using ih hnd' p
      · simp [fmtLoop, hd, check_returncode, hc, List.count_cons]
        split <;> simp
    · have hd' : e.isDir = false := by simpa using hd
      simp only [fmtLoop, hd', if_false, Bool.false_eq_true]
      exact ih hnd' p

/-- Entries with pairwise distinct paths have pairwise distinct absolute
paths. -/
theorem abs_nodup (fs : List FsEntry) (h : (fs.map FsEntry.path).Nodup) :
    (fs.map FsEntry.absolute).Nodup := by
  have hmap : fs.map FsEntry.absolute =
      (fs.map FsEntry.path).map (fun p => packagesDir ++ p) := by
    rw [List.map_map]
    rfl
  rw [hmap]
  exact List.Nodup.map (fun a b hab => List.append_cancel_left hab) h

end TeamsAI

namespace TeamsAI

/-- C2: a string is accepted by the (spec-modelled) consuming validator
exactly when it is a member of the enumerated activity-type set, and that
set has exactly 18 literals. -/
theorem activityType_valid_iff :
    (∀ v : String, isValidActivityType v = true ↔ v ∈ ActivityType) ∧
      ActivityType.length = 18 := by
  constructor
  · intro v
    simp [isValidActivityType, List.contains]
  · rfl

/-- C7: each of the four example values "message", "typing", "event" and
"invoke" is a member of the enumerated `ActivityType` set. -/
theorem activityType_examples_mem :
    "message" ∈ ActivityType ∧ "typing" ∈ ActivityType ∧
      "event" ∈ ActivityType ∧ "invoke" ∈ ActivityType := by
  decide

/-- C8: the `ActivityType` enumeration contains exactly 18 string
literals and they are pairwise distinct. -/
theorem activityType_card_nodup :
    ActivityType.length = 18 ∧ ActivityType.Nodup := by
  decide

/-- C1: with immediate subdirectories A, B, C processed in that order,
where A's formatter succeeds and B's fails, `fmt` processes A to
completion, attempts B, raises the failure carrying B's nonzero return
code, and never starts the formatter in C. -/
theorem fmt_stops_at_first_failure
    (rc : List String → Int) (A B C : FsEntry)
    (hA1 : A.path.length = 1) (hB1 : B.path.length = 1) (hC1 : C.path.length = 1)
    (hAd : A.isDir = true) (hBd : B.isDir = true)
    (hCA : C.path ≠ A.path) (hCB : C.path ≠ B.path)
    (hrcA : rc A.absolute = 0) (hrcB : rc B.absolute ≠ 0) :
    fmt rc [A, B, C] =
      ([Event.banner A.name, Event.start A.absolute, Event.finish A.absolute 0,
        Event.banner B.name, Event.start B.absolute,
        Event.finish B.absolute (rc B.absolute)],
       Except.error (rc B.absolute)) ∧
      Event.start C.absolute ∉ (fmt rc [A, B, C]).1 := by
  have habsA : C.absolute ≠ A.absolute := by
    intro h
    exact hCA (List.append_cancel_left h)
  have habsB : C.absolute ≠ B.absolute := by
    intro h
    exact hCB (List.append_cancel_left h)
  constructor
  · simp [fmt, glob_star, hA1, hB1, hC1, fmtLoop, hAd, hBd, check_returncode,
      hrcA, hrcB]
  · simp [fmt, glob_star, hA1, hB1, hC1, fmtLoop, hAd, hBd, check_returncode,
      hrcA, hrcB, habsA, habsB]

/-- C1 witness: the concrete run over children a, b, c where b's formatter
exits with code 2. -/
theorem fmt_stops_at_first_failure_witness :
    fmt rcFailB [eA, eB, eC] =
      ([Event.banner eA.name, Event.start eA.absolute, Event.finish eA.absolute 0,
        Event.banner eB.name, Event.start eB.absolute,
        Event.finish eB.absolute (rcFailB eB.absolute)],
       Except.error (rcFailB eB.absolute)) ∧
      Event.start eC.absolute ∉ (fmt rcFailB [eA, eB, eC]).1 :=
  fmt_stops_at_first_failure rcFailB eA eB eC rfl rfl rfl rfl rfl
    (by decide) (by decide) (by decide) (by decide)

/-- C5: over a folder with no immediate subdirectories, `fmt` performs no
formatter invocation, produces no output, and returns normally. -/
theorem fmt_no_subdirs (rc : List String → Int) (fs : List FsEntry)
    (h : ∀ e ∈ fs, e.path.length = 1 → e.isDir = false) :
    fmt rc fs = ([], Except.ok ()) := by
  unfold fmt
  apply fmtLoop_no_dirs
  intro e he
  rw [glob_star, List.mem_filter] at he
  exact h e he.1 (by simpa using he.2)

/-- C5 witness: a folder whose only immediate child is a plain file. -/
theorem fmt_no_subdirs_witness :
    fmt rcZero [fileX] = ([], Except.ok ()) :=
  fmt_no_subdirs rcZero [fileX] (by decide)

/-- C10: `check_returncode` raises for every nonzero return code, negative
(signal termination) as well as positive, and `fmt` consequently aborts
the run with that code when the first subdirectory's formatter returns any
nonzero code. -/
theorem fmt_aborts_on_any_nonzero (rc : List String → Int) (e : FsEntry)
    (fs : List FsEntry) (h1 : e.path.length = 1) (hd : e.isDir = true)
    (hc : rc e.absolute ≠ 0) :
    check_returncode (rc e.absolute) = Except.error (rc e.absolute) ∧
      (fmt rc (e :: fs)).2 = Except.error (rc e.absolute) := by
  constructor
  · simp [check_returncode, hc]
  · simp [fmt, glob_star, h1, fmtLoop, hd, check_returncode, hc]

/-- C10 witness: a formatter killed by SIGKILL (return code -9) aborts the
run with code -9. -/
theorem fmt_aborts_on_any_nonzero_witness :
    check_returncode (rcNeg eA.absolute) = Except.error (rcNeg eA.absolute) ∧
      (fmt rcNeg [eA]).2 = Except.error (rcNeg eA.absolute) :=
  fmt_aborts_on_any_nonzero rcNeg eA [] rfl rfl (by decide)

/-- C3 counterexample: `b` is an immediate child directory of
`./packages`, yet when the earlier directory `a`'s formatter fails (exit
code 1) the run aborts and the formatter is never invoked in `b` — so
"invokes exactly when `e` is a directory" is false as stated. -/
theorem fmt_invokes_dirs_counterexample :
    eB.path.length = 1 ∧ eB.isDir = true ∧
      Event.start eB.absolute ∉ (fmt rcFailA [eA, eB]).1 := by
  decide

/-- C3 amended: every formatter invocation's working directory is the
absolute path of some immediate child directory (non-directories and
entries nested deeper than one level never trigger an invocation), and
whenever no invocation fails, the formatter is invoked, with the entry's
absolute path as working directory, for every immediate child directory. -/
theorem fmt_invokes_dirs_amended (rc : List String → Int) (fs : List FsEntry) :
    (∀ p, Event.start p ∈ (fmt rc fs).1 →
        ∃ e, e ∈ fs ∧ e.path.length = 1 ∧ e.isDir = true ∧ p = e.absolute) ∧
      ((∀ e ∈ fs, e.path.length = 1 → e.isDir = true → rc e.absolute = 0) →
        ∀ e ∈ fs, e.path.length = 1 → e.isDir = true →
          Event.start e.absolute ∈ (fmt rc fs).1) := by
  constructor
  · intro p hp
    obtain ⟨e, he, hd, hpe⟩ := fmtLoop_start_mem rc (glob_star fs) p hp
    rw [glob_star, List.mem_filter] at he
    exact ⟨e, he.1, by simpa using he.2, hd, hpe⟩
  · intro hok e he h1 hd
    apply fmtLoop_all_ok_starts rc (glob_star fs)
    · intro x hx hxd
      rw [glob_star, List.mem_filter] at hx
      exact hok x hx.1 (by simpa using hx.2) hxd
    · rw [glob_star, List.mem_filter]
      exact ⟨he, by simp [h1]⟩
    · exact hd

/-- C3 amended witness: in a run with no failures over children `a`
(a directory) and `x` (a plain file), the formatter is started in `a`. -/
theorem fmt_invokes_dirs_amended_witness :
    Event.start eA.absolute ∈ (fmt rcZero [eA, fileX]).1 :=
  (fmt_invokes_dirs_amended rcZero [eA, fileX]).2 (by decide) eA
    (by simp [eA, fileX]) rfl rfl

/-- C4: `fmt` fails exactly when one of its formatter invocations returns
a nonzero code; the only failure is `Except.error` carrying a nonzero
code, the trace ends at the failing invocation (immediate abort, no
recovery), and no working directory's formatter is started more than
once. -/
theorem fmt_fails_iff_nonzero (rc : List String → Int) (fs : List FsEntry)
    (hnd : ((glob_star fs).map FsEntry.path).Nodup) :
    ((fmt rc fs).2 ≠ Except.ok () ↔
        ∃ p c, Event.finish p c ∈ (fmt rc fs).1 ∧ c ≠ 0) ∧
      (∀ c : Int, (fmt rc fs).2 = Except.error c →
        c ≠ 0 ∧ ∃ t p, (fmt rc fs).1 = t ++ [Event.finish p c]) ∧
      (∀ p, ((fmt rc fs).1.count (Event.start p)) ≤ 1) := by
  have habs := abs_nodup (glob_star fs) hnd
  refine ⟨⟨?_, ?_⟩, ?_, ?_⟩
  · intro hne
    rcases hres : (fmt rc fs).2 with c | u
    · obtain ⟨hc, t, p, ht⟩ := fmtLoop_error_shape rc (glob_star fs) c hres
      refine ⟨p, c, ?_, hc⟩
      show Event.finish p c ∈ (fmtLoop rc (glob_star fs)).1
      rw [ht]
      simp
    · cases u
      exact absurd hres hne
  · rintro ⟨p, c, hmem, hc⟩ hok
    exact hc (fmtLoop_ok_all_zero rc (glob_star fs) hok p c hmem)
  · exact fun c h => fmtLoop_error_shape rc (glob_star fs) c h
  · exact fun p => fmtLoop_start_count rc (glob_star fs) habs p

/-- C4 witness: the run over children a, b, c where b's formatter fails
starts the formatter in b exactly once. -/
theorem fmt_fails_iff_nonzero_witness :
    ((fmt rcFailB [eA, eB, eC]).1.count (Event.start eB.absolute)) ≤ 1 :=
  (fmt_fails_iff_nonzero rcFailB [eA, eB, eC] (by decide)).2.2 eB.absolute

/-- Each `start` event in the loop's trace is immediately followed by the
`finish` event of the same working directory, carrying the return code the
oracle assigns to it. -/
theorem fmtLoop_start_next (rc : List String → Int) :
    ∀ l : List FsEntry, ∀ i p, (fmtLoop rc l).1.get? i = some (Event.start p) →
      (fmtLoop rc l).1.get? (i + 1) = some (Event.finish p (rc p)) := by
  intro l
  induction l with
  | nil => intro i p h; simp [fmtLoop] at h
  | cons e rest ih =>
    intro i p h
    by_cases hd : e.isDir
    · by_cases hc : rc e.absolute = 0
      · rcases i with _ | _ | _ | i
        · simp [fmtLoop, hd, check_returncode, hc] at h
        · simp [fmtLoop, hd, check_returncode, hc] at h ⊢
          subst h
          simp [hc]
        · simp [fmtLoop, hd, check_returncode, hc] at h
        · simp only [fmtLoop, hd, if_true, check_returncode, hc, if_pos,
            List.get?_cons_succ] at h ⊢
          exact ih i p h
      · rcases i with _ | _ | _ | i
        · simp [fmtLoop, hd, check_returncode, hc] at h
        · simp [fmtLoop, hd, check_returncode, hc] at h ⊢
          subst h
          exact ⟨rfl, rfl⟩
        · simp [fmtLoop, hd, check_returncode, hc] at h
        · simp [fmtLoop, hd, check_returncode, hc] at h
    · have hd' : e.isDir = false := by simpa using hd
      simp only [fmtLoop, hd', if_false, Bool.false_eq_true] at h ⊢
      exact ih i p h

/-- C6: execution is strictly sequential and synchronous — every started
invocation's completion is the very next observable event, and between any
two starts the completion of the earlier one is observed. -/
theorem fmt_sequential (rc : List String → Int) (fs : List FsEntry) :
    (∀ i p, (fmt rc fs).1.get? i = some (Event.start p) →
        (fmt rc fs).1.get? (i + 1) = some (Event.finish p (rc p))) ∧
      (∀ i j p q, i < j →
        (fmt rc fs).1.get? i = some (Event.start p) →
        (fmt rc fs).1.get? j = some (Event.start q) →
        ∃ k, i < k ∧ k < j ∧
          (fmt rc fs).1.get? k = some (Event.finish p (rc p))) := by
  have h1 := fmtLoop_start_next rc (glob_star fs)
  refine ⟨fun i p h => h1 i p h, fun i j p q hij hi hj => ?_⟩
  have hfin : (fmt rc fs).1.get? (i + 1) = some (Event.finish p (rc p)) :=
    h1 i p hi
  refine ⟨i + 1, Nat.lt_succ_self i, ?_, hfin⟩
  rcases Nat.lt_or_ge (i + 1) j with hlt | hge
  · exact hlt
  · have heq : j = i + 1 := by omega
    rw [heq, hfin] at hj
    simp at hj

/-- C6 witness: in a two-directory run, directory a's completion is the
event right after its start. -/
theorem fmt_sequential_witness :
    (fmt rcZero [eA, eB]).1.get? 2 =
      some (Event.finish eA.absolute (rcZero eA.absolute)) :=
  (fmt_sequential rcZero [eA, eB]).1 1 eA.absolute (by decide)

/-- A trace of the loop, over entries whose path is their single name
segment, never begins with a `start`, and every `start` is directly
preceded by the banner of the directory being formatted. -/
theorem fmtLoop_banner_first (rc : List String → Int) :
    ∀ l : List FsEntry, (∀ e ∈ l, e.path = [e.name]) →
      (∀ p, (fmtLoop rc l).1.get? 0 ≠ some (Event.start p)) ∧
      (∀ i p, (fmtLoop rc l).1.get? (i + 1) = some (Event.start p) →
        ∃ n, (fmtLoop rc l).1.get? i = some (Event.banner n) ∧
          p = packagesDir ++ [n]) := by
  intro l
  induction l with
  | nil =>
    intro _
    constructor
    · intro p h
      simp [fmtLoop] at h
    · intro i p h
      simp [fmtLoop] at h
  | cons e rest ih =>
    intro h
    have hpath : e.path = [e.name] := h e (List.mem_cons_self e rest)
    have ihr := ih fun x hx => h x (List.mem_cons_of_mem _ hx)
    by_cases hd : e.isDir
    · by_cases hc : rc e.absolute = 0
      · constructor
        · intro p hp
          simp [fmtLoop, hd, check_returncode, hc] at hp
        · intro i p hp
          rcases i with _ | _ | _ | k
          · simp [fmtLoop, hd, check_returncode, hc] at hp
            refine ⟨e.name, ?_, ?_⟩
            · simp [fmtLoop, hd, check_returncode, hc]
            · rw [← hp, FsEntry.absolute, hpath]
          · simp [fmtLoop, hd, check_returncode, hc] at hp
          · simp only [fmtLoop, hd, if_true, check_returncode, hc, if_pos,
              List.get?_cons_succ] at hp
            exact absurd hp (ihr.1 p)
          · simp only [fmtLoop, hd, if_true, check_returncode, hc, if_pos,
              List.get?_cons_succ] at hp ⊢
            exact ihr.2 k p hp
      · constructor
        · intro p hp
          simp [fmtLoop, hd, check_returncode, hc] at hp
        · intro i p hp
          rcases i with _ | _ | _ | k
          · simp [fmtLoop, hd, check_returncode, hc] at hp
            refine ⟨e.name, ?_, ?_⟩
            · simp [fmtLoop, hd, check_returncode, hc]
            · rw [← hp, FsEntry.absolute, hpath]
          · simp [fmtLoop, hd, check_returncode, hc] at hp
          · simp [fmtLoop, hd, check_returncode, hc] at hp
          · simp [fmtLoop, hd, check_returncode, hc] at hp
    · have hd' : e.isDir = false := by simpa using hd
      simp only [fmtLoop, hd', if_false, Bool.false_eq_true]
      exact ihr

/-- C9: a run of `fmt` prints, for every subdirectory whose formatter is
attempted (the failing one included), the banner carrying that
subdirectory's name immediately before starting the formatter there: a
`start` event never comes first, and the event before each `start` is the
banner naming the started directory. -/
theorem fmt_banner_before_start (rc : List String → Int) (fs : List FsEntry) :
    (∀ p, (fmt rc fs).1.get? 0 ≠ some (Event.start p)) ∧
      (∀ i p, (fmt rc fs).1.get? (i + 1) = some (Event.start p) →
        ∃ n, (fmt rc fs).1.get? i = some (Event.banner n) ∧
          p = packagesDir ++ [n]) := by
  apply fmtLoop_banner_first
  intro e he
  rw [glob_star, List.mem_filter] at he
  exact FsEntry.path_singleton e (by simpa using he.2)

/-- C9 witness: for the single failing directory a, the failing run's
trace has the banner with a's name at position 0, right before a's
`start`. -/
theorem fmt_banner_before_start_witness :
    ∃ n, (fmt rcFailA [eA]).1.get? 0 = some (Event.banner n) ∧
      eA.absolute = packagesDir ++ [n] :=
  (fmt_banner_before_start rcFailA [eA]).2 0 eA.absolute (by decide)

end TeamsAI
